import Mathlib

/-!
Verification development for the git-grep search core of this repository
(`src/plugins/git/gitgrep.cpp`).

The decoder (`GitGrepRunner::processLine`, `GitGrepRunner::read`), the
argument builder and outcome classification (`GitGrepRunner::exec`), and the
revision viewer (`GitGrep::openEditor`) are embedded shallowly.  Strings are
`List Char`; the Qt string operations used by the source (`QString::left`,
`QString::mid`, `QString::indexOf`, `QString::toInt`, `QString::startsWith`,
`QString::remove`) are modelled with their Qt semantics, including the
behaviour on negative positions and lengths that the source relies on.
The future interface (`QFutureInterface::reportResult`,
`QFutureInterface::reportCanceled`) is modelled from Qt's semantics:
`reportResult` is a no-op once the future is canceled.
`QTextStream::readLine` is modelled as splitting at newline characters
(no input in this development contains a carriage return).
-/

namespace GitGrep

/-- The null separator `QChar::Null` used by `git grep -z` output. -/
def nul : Char := Char.ofNat 0

/-- The escape character starting both highlight markers. -/
def esc : Char := Char.ofNat 27

/-- The start-of-match marker `"\x1b[1;31m"` (`boldRed` in the source). -/
def boldRed : List Char := [esc, '[', '1', ';', '3', '1', 'm']

/-- The end-of-match marker `"\x1b[m"` (`resetColor` in the source). -/
def resetColor : List Char := [esc, '[', 'm']

/-- Index of the first occurrence of `pat` in a list, if any.
Models the search done by `QString::indexOf`. -/
def findSubstr (pat : List Char) : List Char → Option Nat
  | [] => if pat.isEmpty then some 0 else none
  | c :: rest =>
    if pat.isPrefixOf (c :: rest) then some 0
    else (findSubstr pat rest).map (· + 1)

/-- Number of occurrences of `pat` as a substring of `s`. -/
def countOcc (pat s : List Char) : Nat :=
  ((List.range (s.length + 1)).filter (fun i => pat.isPrefixOf (s.drop i))).length

/-- `QString::indexOf(pat, start)` for a non-negative start position:
the absolute index of the first occurrence at position `start` or later,
`-1` if there is none. -/
def qIndexOf (pat s : List Char) (start : Nat) : Int :=
  match findSubstr pat (s.drop start) with
  | some i => ((start + i : Nat) : Int)
  | none => -1

/-- `QString::left(n)`: the whole string when `n` is negative or at least the
size, otherwise the first `n` characters. -/
def qLeft (s : List Char) (n : Int) : List Char :=
  if n < 0 ∨ (s.length : Int) ≤ n then s else s.take n.toNat

/-- `QString::mid(pos, n)` with Qt's clamping semantics
(`QContainerImplHelper::mid`). -/
def qMid (s : List Char) (pos n : Int) : List Char :=
  if (s.length : Int) < pos then []
  else if pos < 0 then
    (if n < 0 ∨ (s.length : Int) ≤ n + pos then s
     else if n + pos ≤ 0 then []
     else s.take (n + pos).toNat)
  else if n < 0 then s.drop pos.toNat
  else (s.drop pos.toNat).take n.toNat

/-- `QString::mid(pos)`: the rest of the string from `pos`. -/
def qMidAll (s : List Char) (pos : Int) : List Char :=
  qMid s pos (-1)

/-- Accumulate the numeric value of a digit string; fails on a non-digit. -/
def digitsVal (acc : Nat) : List Char → Option Nat
  | [] => some acc
  | c :: rest => if c.isDigit then digitsVal (acc * 10 + (c.toNat - 48)) rest else none

/-- `QString::toInt`: optional sign followed by at least one digit;
any other input converts to `0`. -/
def qToInt (s : List Char) : Int :=
  match s with
  | '-' :: rest =>
    (match digitsVal 0 rest with
     | some n => -(n : Int)
     | none => 0)
  | '+' :: rest =>
    (match digitsVal 0 rest with
     | some n => (n : Int)
     | none => 0)
  | _ =>
    (match digitsVal 0 s with
     | some n => (n : Int)
     | none => 0)

/-- One match record, `Utils::FileSearchResult` as filled in by
`GitGrepRunner::processLine`. -/
structure FileSearchResult where
  fileName : List Char
  lineNumber : Int
  matchingLine : List Char
  matchStart : Nat
  matchLength : Nat
deriving DecidableEq, Repr, Inhabited

/-- The marker-splicing loop of `GitGrepRunner::processLine`: repeatedly find
the next `boldRed` marker, its `resetColor` end marker, record the span's
offset and length, and splice the marker pair out of the text.  The C++ loop
runs until a `break`; each splicing iteration removes the ten marker
characters from the text, so `text.length + 1` units of fuel (as passed by
`processLine`) always suffice and the fuel case is never reached. -/
def matchLoop : Nat → List Char → List (Nat × Nat) → List (Nat × Nat) × List Char
  | 0, text, acc => (acc, text)
  | fuel + 1, text, acc =>
    match findSubstr boldRed text with
    | none => (acc, text)
    | some matchStart =>
      match findSubstr resetColor (text.drop (matchStart + 7)) with
      | none => (acc, text)
      | some r =>
        matchLoop fuel
          (text.take matchStart ++ (text.drop (matchStart + 7)).take r
            ++ text.drop (matchStart + 7 + r + 3))
          (acc ++ [(matchStart, r)])

/-- `GitGrepRunner::processLine`: split one output line at the first two null
separators into file path, line number and highlighted text, strip the
remembered revision ref from the path, splice out the highlight markers, and
emit one record per recorded span, all sharing the same file name, line
number and marker-free line. -/
def processLine (dir ref line : List Char) : List FileSearchResult :=
  if line = [] then []
  else
    let lineSeparator : Int := qIndexOf [nul] line 0
    let filePath0 : List Char := qLeft line lineSeparator
    let filePath : List Char :=
      if ref ≠ [] ∧ ref.isPrefixOf filePath0 then filePath0.drop ref.length else filePath0
    let fileName : List Char := dir ++ '/' :: filePath
    let textSeparator : Int := qIndexOf [nul] line (lineSeparator + 1).toNat
    let lineNumber : Int := qToInt (qMid line (lineSeparator + 1) (textSeparator - lineSeparator - 1))
    let text : List Char := qMidAll line (textSeparator + 1)
    let looped := matchLoop (text.length + 1) text []
    looped.1.map (fun mt =>
      { fileName := fileName, lineNumber := lineNumber, matchingLine := looped.2,
        matchStart := mt.1, matchLength := mt.2 })

/-- `QTextStream::readLine` iterated over one chunk of text: the logical lines
of the chunk, splitting at newline characters, with an unterminated final
line returned as-is. -/
def splitLines : List Char → List (List Char)
  | [] => []
  | c :: rest =>
    if c = '\n' then [] :: splitLines rest
    else
      match splitLines rest with
      | [] => [[c]]
      | l :: ls => (c :: l) :: ls

/-- The state of the `QFutureInterface`: the cancellation flag and the batches
of records reported so far. -/
structure FutureState where
  canceled : Bool
  reported : List (List FileSearchResult)
deriving DecidableEq, Repr

/-- `QFutureInterface::reportResult`: a no-op once the future is canceled,
otherwise appends the batch to the reported results. -/
def reportResult (st : FutureState) (batch : List FileSearchResult) : FutureState :=
  if st.canceled then st else { st with reported := st.reported ++ [batch] }

/-- `QFutureInterface::reportCanceled`: sets the cancellation flag. -/
def reportCanceled (st : FutureState) : FutureState :=
  { st with canceled := true }

/-- The line loop of `GitGrepRunner::read`: process the lines of one chunk in
order, checking the cancellation flag before each line; `cancelAt i` is the
value the flag has when it is read before line `i` of this chunk. -/
def readLoop (cancelAt : Nat → Bool) (dir ref : List Char) :
    List (List Char) → Nat → List FileSearchResult
  | [], _ => []
  | l :: rest, i =>
    if cancelAt i then []
    else processLine dir ref l ++ readLoop cancelAt dir ref rest (i + 1)

/-- `GitGrepRunner::read`: decode one chunk of process output and publish the
accumulated records as one batch unless the batch is empty. -/
def read (cancelAt : Nat → Bool) (dir ref chunk : List Char) (st : FutureState) : FutureState :=
  let resultList := readLoop cancelAt dir ref (splitLines chunk) 0
  if resultList = [] then st else reportResult st resultList

/-- The records decoded from one chunk when no cancellation occurs. -/
def readRecords (dir ref chunk : List Char) : List FileSearchResult :=
  readLoop (fun _ => false) dir ref (splitLines chunk) 0

/-- The ordered sequence of records produced when the tool's output arrives
split into the given chunks, each chunk decoded by `read`. -/
def decodeChunks (dir ref : List Char) (chunks : List (List Char)) : List FileSearchResult :=
  (chunks.map (readRecords dir ref)).flatten

/-- `Utils::SynchronousProcessResponse::Result`: the classification of the
external process's termination received by `GitGrepRunner::exec`. -/
inductive SyncProcessResult where
  | Finished
  | FinishedError
  | TerminatedAbnormally
  | StartFailed
  | Hang
deriving DecidableEq, Repr

/-- The `switch` at the end of `GitGrepRunner::exec`: abnormal termination,
launch failure and hang call `reportCanceled`; a clean exit and a non-zero
exit (git grep's "no matches" signal) leave the future untouched. -/
def execFinalize : SyncProcessResult → FutureState → FutureState
  | SyncProcessResult.TerminatedAbnormally, st => reportCanceled st
  | SyncProcessResult.StartFailed, st => reportCanceled st
  | SyncProcessResult.Hang, st => reportCanceled st
  | SyncProcessResult.Finished, st => st
  | SyncProcessResult.FinishedError, st => st

/-- The caller-visible terminal outcome of the invocation. -/
inductive ProcessOutcome where
  | Completed
  | Canceled
deriving DecidableEq, Repr

/-- The terminal outcome read off the future state. -/
def outcomeOf (st : FutureState) : ProcessOutcome :=
  if st.canceled then ProcessOutcome.Canceled else ProcessOutcome.Completed

/-- The path prefix remembered by `GitGrepRunner::exec` when a scope
reference is registered: the reference plus `':'`, or nothing when the
reference is empty. -/
def registeredRef (ref : List Char) : List Char :=
  if ref = [] then [] else ref ++ [':']

/-- The query configuration consumed by `GitGrepRunner::exec`
(`TextEditor::FileFindParameters` plus `GitGrepParameters::ref`). -/
structure FileFindParameters where
  text : String
  nameFilters : List String
  findCaseSensitively : Bool
  findWholeWords : Bool
  findRegularExpression : Bool
  ref : String
deriving DecidableEq, Repr

/-- The argument list built at the start of `GitGrepRunner::exec`. -/
def execArguments (p : FileFindParameters) : List String :=
  ["-c", "color.grep.match=bold red", "grep", "-zn", "--color=always"]
    ++ (if p.findCaseSensitively then [] else ["-i"])
    ++ (if p.findWholeWords then ["-w"] else [])
    ++ (if p.findRegularExpression then ["-P"] else ["-F"])
    ++ [p.text]
    ++ (if p.ref = "" then [] else [p.ref])
    ++ ["--"] ++ p.nameFilters

/-- `GitGrep::openEditor`: given whether the extension is enabled, the
registered revision, whether the item path is empty, the result of
`git show` (`none` on failure) and the current on-disk content (`none` when
the file is unreadable), return `none` to signal "open the live file" or
`some content` for a read-only view of the revision content. -/
def openEditor (isEnabledParam : Bool) (refParam : String) (pathEmpty : Bool)
    (showResult : Option (List UInt8)) (diskRead : Option (List UInt8)) : Option (List UInt8) :=
  if isEnabledParam = false ∨ refParam = "" ∨ pathEmpty then none
  else
    match showResult with
    | none => none
    | some content =>
      if content = [] then none
      else
        match diskRead with
        | some fileContent => if fileContent = content then none else some content
        | none => some content

/-- A line of well-formed highlighted text after an initial plain segment:
for each `(m, p)` in `segs` a highlighted span `m` (between a `boldRed` and a
`resetColor` marker) followed by a plain segment `p`; an optional final
unmatched `boldRed` marker followed by a plain tail. -/
def lineRest : List (List Char × List Char) → Option (List Char) → List Char
  | [], none => []
  | [], some t => boldRed ++ t
  | mp :: segs, t? => boldRed ++ mp.1 ++ resetColor ++ mp.2 ++ lineRest segs t?

/-- The marker-free form of `lineRest` (an unmatched final marker is kept,
matching the splicing loop's early exit). -/
def strippedRest : List (List Char × List Char) → Option (List Char) → List Char
  | [], none => []
  | [], some t => boldRed ++ t
  | mp :: segs, t? => mp.1 ++ mp.2 ++ strippedRest segs t?

/-- The spans of the highlighted segments of `lineRest segs` relative to the
marker-free text, when the text starts at offset `off`. -/
def spansFrom (off : Nat) : List (List Char × List Char) → List (Nat × Nat)
  | [] => []
  | mp :: segs => (off, mp.1.length) :: spansFrom (off + mp.1.length + mp.2.length) segs

theorem isPrefixOf_append_self (l suf : List Char) : l.isPrefixOf (l ++ suf) = true := by
  induction l with
  | nil => simp [List.isPrefixOf]
  | cons a l ih => simp [List.isPrefixOf_cons₂, ih]

theorem findSubstr_of_append (c : Char) (pat pre suf : List Char) (hpre : c ∉ pre) :
    findSubstr (c :: pat) (pre ++ (c :: pat) ++ suf) = some pre.length := by
  induction pre with
  | nil =>
    simp [findSubstr, isPrefixOf_append_self]
  | cons a pre ih =>
    have hca : c ≠ a := by
      intro h
      exact hpre (by simp [h])
    have hpre' : c ∉ pre := fun h => hpre (List.mem_cons_of_mem _ h)
    have ih' := ih hpre'
    simp only [List.append_assoc, List.cons_append] at ih' ⊢
    simp [findSubstr, List.isPrefixOf_cons₂, hca, ih']

theorem findSubstr_none_of_not_mem (c : Char) (pat s : List Char) (h : c ∉ s) :
    findSubstr (c :: pat) s = none := by
  induction s with
  | nil => rfl
  | cons a s ih =>
    have hca : c ≠ a := by
      intro hh
      exact h (by simp [hh])
    have h' : c ∉ s := fun hh => h (List.mem_cons_of_mem _ hh)
    simp [findSubstr, List.isPrefixOf_cons₂, hca, ih h']

theorem findSubstr_boldRed (pre suf : List Char) (h : esc ∉ pre) :
    findSubstr boldRed (pre ++ (boldRed ++ suf)) = some pre.length := by
  have hb := findSubstr_of_append esc ['[', '1', ';', '3', '1', 'm'] pre suf h
  simpa [boldRed, List.append_assoc] using hb

theorem findSubstr_resetColor (pre suf : List Char) (h : esc ∉ pre) :
    findSubstr resetColor (pre ++ (resetColor ++ suf)) = some pre.length := by
  have hb := findSubstr_of_append esc ['[', 'm'] pre suf h
  simpa [resetColor, List.append_assoc] using hb

theorem findSubstr_boldRed_none (s : List Char) (h : esc ∉ s) :
    findSubstr boldRed s = none :=
  findSubstr_none_of_not_mem esc _ s h

theorem findSubstr_resetColor_none (s : List Char) (h : esc ∉ s) :
    findSubstr resetColor s = none :=
  findSubstr_none_of_not_mem esc _ s h

theorem findSubstr_nul_cons (pre suf : List Char) (h : nul ∉ pre) :
    findSubstr [nul] (pre ++ nul :: suf) = some pre.length := by
  have hb := findSubstr_of_append nul [] pre suf h
  simpa [List.append_assoc] using hb

theorem matchLoop_no_marker (fuel : Nat) (t : List Char) (acc : List (Nat × Nat))
    (h : esc ∉ t) : matchLoop (fuel + 1) t acc = (acc, t) := by
  simp [matchLoop, findSubstr_boldRed_none t h]

theorem matchLoop_unmatched (fuel : Nat) (p0 t : List Char) (acc : List (Nat × Nat))
    (hp0 : esc ∉ p0) (ht : esc ∉ t) :
    matchLoop (fuel + 1) (p0 ++ (boldRed ++ t)) acc = (acc, p0 ++ (boldRed ++ t)) := by
  have h1 : findSubstr boldRed (p0 ++ (boldRed ++ t)) = some p0.length :=
    findSubstr_boldRed _ _ hp0
  have hdrop : (p0 ++ (boldRed ++ t)).drop (p0.length + 7) = t := by
    rw [show p0 ++ (boldRed ++ t) = (p0 ++ boldRed) ++ t by simp [List.append_assoc]]
    exact List.drop_left' (by simp [boldRed])
  have h2 : findSubstr resetColor ((p0 ++ (boldRed ++ t)).drop (p0.length + 7)) = none := by
    rw [hdrop]
    exact findSubstr_resetColor_none t ht
  have hd7 : (boldRed ++ t).drop 7 = t := rfl
  simp [matchLoop, h1, h2, hd7, findSubstr_resetColor_none t ht]

theorem matchLoop_step (fuel : Nat) (p0 m rest : List Char) (acc : List (Nat × Nat))
    (hp0 : esc ∉ p0) (hm : esc ∉ m) :
    matchLoop (fuel + 1) (p0 ++ (boldRed ++ (m ++ (resetColor ++ rest)))) acc
      = matchLoop fuel (p0 ++ (m ++ rest)) (acc ++ [(p0.length, m.length)]) := by
  have h1 : findSubstr boldRed (p0 ++ (boldRed ++ (m ++ (resetColor ++ rest))))
      = some p0.length := findSubstr_boldRed _ _ hp0
  have hdrop : (p0 ++ (boldRed ++ (m ++ (resetColor ++ rest)))).drop (p0.length + 7)
      = m ++ (resetColor ++ rest) := by
    rw [show p0 ++ (boldRed ++ (m ++ (resetColor ++ rest)))
        = (p0 ++ boldRed) ++ (m ++ (resetColor ++ rest)) by simp [List.append_assoc]]
    exact List.drop_left' (by simp [boldRed])
  have h2 : findSubstr resetColor
      ((p0 ++ (boldRed ++ (m ++ (resetColor ++ rest)))).drop (p0.length + 7))
      = some m.length := by
    rw [hdrop]
    exact findSubstr_resetColor _ _ hm
  have htake : (p0 ++ (boldRed ++ (m ++ (resetColor ++ rest)))).take p0.length = p0 :=
    List.take_left' rfl
  have htake2 : ((p0 ++ (boldRed ++ (m ++ (resetColor ++ rest)))).drop (p0.length + 7)).take m.length
      = m := by
    rw [hdrop]
    exact List.take_left' rfl
  have hdrop2 : (p0 ++ (boldRed ++ (m ++ (resetColor ++ rest)))).drop (p0.length + 7 + m.length + 3)
      = rest := by
    rw [show p0 ++ (boldRed ++ (m ++ (resetColor ++ rest)))
        = (((p0 ++ boldRed) ++ m) ++ resetColor) ++ rest by simp [List.append_assoc]]
    refine List.drop_left' ?_
    simp [boldRed, resetColor]
    omega
  have hd7 : (boldRed ++ (m ++ (resetColor ++ rest))).drop 7 = m ++ (resetColor ++ rest) := rfl
  have h2b : findSubstr resetColor (m ++ (resetColor ++ rest)) = some m.length :=
    findSubstr_resetColor _ _ hm
  have ht2 : (m ++ (resetColor ++ rest)).take m.length = m := List.take_left' rfl
  simp [matchLoop, h1, h2, htake, htake2, hdrop2, hd7, h2b, ht2, List.append_assoc]

theorem lineRest_length_ge (segs : List (List Char × List Char)) (t? : Option (List Char)) :
    segs.length ≤ (lineRest segs t?).length := by
  induction segs with
  | nil => cases t? <;> simp [lineRest]
  | cons mp segs ih =>
    cases t? <;> simp [lineRest, boldRed, resetColor] at ih ⊢ <;> omega

theorem matchLoop_wf (segs : List (List Char × List Char)) (p0 : List Char)
    (t? : Option (List Char)) (acc : List (Nat × Nat)) (fuel : Nat)
    (hp0 : esc ∉ p0)
    (hsegs : ∀ mp ∈ segs, esc ∉ mp.1 ∧ esc ∉ mp.2)
    (ht : ∀ t, t? = some t → esc ∉ t)
    (hfuel : segs.length + 1 ≤ fuel) :
    matchLoop fuel (p0 ++ lineRest segs t?) acc
      = (acc ++ spansFrom p0.length segs, p0 ++ strippedRest segs t?) := by
  induction segs generalizing p0 acc fuel with
  | nil =>
    obtain ⟨f, rfl⟩ : ∃ f, fuel = f + 1 := ⟨fuel - 1, by omega⟩
    cases t? with
    | none => simpa [lineRest, strippedRest, spansFrom] using matchLoop_no_marker f p0 acc hp0
    | some t =>
      have ht' := ht t rfl
      simpa [lineRest, strippedRest, spansFrom] using
        matchLoop_unmatched f p0 t acc hp0 ht'
  | cons mp segs ih =>
    obtain ⟨f, rfl⟩ : ∃ f, fuel = f + 1 := ⟨fuel - 1, by omega⟩
    obtain ⟨m, p⟩ := mp
    have hm : esc ∉ m := (hsegs (m, p) (by simp)).1
    have hp : esc ∉ p := (hsegs (m, p) (by simp)).2
    have hline : p0 ++ lineRest ((m, p) :: segs) t?
        = p0 ++ (boldRed ++ (m ++ (resetColor ++ (p ++ lineRest segs t?)))) := by
      simp [lineRest, List.append_assoc]
    rw [hline, matchLoop_step f p0 m (p ++ lineRest segs t?) acc hp0 hm]
    have hp0' : esc ∉ p0 ++ (m ++ p) := by
      simp [List.mem_append, hp0, hm, hp]
    have iha := ih (p0 ++ (m ++ p)) (acc ++ [(p0.length, m.length)]) f hp0'
      (fun mq hmq => hsegs mq (List.mem_cons_of_mem _ hmq)) (by simpa using hfuel)
    rw [show p0 ++ (m ++ (p ++ lineRest segs t?)) = (p0 ++ (m ++ p)) ++ lineRest segs t? by
      simp [List.append_assoc]]
    rw [iha]
    simp [spansFrom, strippedRest, List.append_assoc, List.length_append, Nat.add_assoc]

theorem spansFrom_mem_bounds (segs : List (List Char × List Char)) :
    ∀ (off : Nat) (sp : Nat × Nat), sp ∈ spansFrom off segs →
      off ≤ sp.1 ∧ sp.1 + sp.2 ≤ off + (strippedRest segs none).length := by
  induction segs with
  | nil => simp [spansFrom]
  | cons mp segs ih =>
    intro off sp hsp
    simp only [spansFrom, List.mem_cons] at hsp
    rcases hsp with rfl | h
    · simp [strippedRest, List.length_append]
    · have hb := ih (off + mp.1.length + mp.2.length) sp h
      simp only [strippedRest, List.length_append] at hb ⊢
      omega

theorem spansFrom_pairwise (off : Nat) (segs : List (List Char × List Char)) :
    List.Pairwise (fun a b => a.1 + a.2 ≤ b.1) (spansFrom off segs) := by
  induction segs generalizing off with
  | nil => simp [spansFrom]
  | cons mp segs ih =>
    refine List.Pairwise.cons ?_ (ih _)
    intro sp hsp
    have hb := spansFrom_mem_bounds segs (off + mp.1.length + mp.2.length) sp hsp
    simp only []
    omega

theorem esc_not_mem_strippedRest_none (segs : List (List Char × List Char))
    (hsegs : ∀ mp ∈ segs, esc ∉ mp.1 ∧ esc ∉ mp.2) :
    esc ∉ strippedRest segs none := by
  induction segs with
  | nil => simp [strippedRest]
  | cons mp segs ih =>
    have h1 := hsegs mp (by simp)
    have h2 := ih (fun mq hmq => hsegs mq (List.mem_cons_of_mem _ hmq))
    simp [strippedRest, List.mem_append, h1.1, h1.2, h2]

theorem isPrefixOf_mem_head (c : Char) (pat l : List Char)
    (h : (c :: pat).isPrefixOf l = true) : c ∈ l := by
  cases l with
  | nil => simp [List.isPrefixOf] at h
  | cons b bs =>
    simp only [List.isPrefixOf_cons₂, Bool.and_eq_true, beq_iff_eq] at h
    simp [h.1]

theorem countOcc_zero (c : Char) (pat s : List Char) (h : c ∉ s) :
    countOcc (c :: pat) s = 0 := by
  unfold countOcc
  rw [List.length_eq_zero, List.filter_eq_nil_iff]
  intro i _ hc
  exact h (List.drop_subset i s (isPrefixOf_mem_head c pat _ hc))

theorem strippedRest_some_eq (segs : List (List Char × List Char)) (t : List Char) :
    strippedRest segs (some t) = strippedRest segs none ++ (boldRed ++ t) := by
  induction segs with
  | nil => simp [strippedRest]
  | cons mp segs ih => simp [strippedRest, ih, List.append_assoc]

theorem processLine_parse (dir ref fp num tp : List Char)
    (hfp : nul ∉ fp) (hnum : nul ∉ num) :
    processLine dir ref (fp ++ nul :: (num ++ nul :: tp))
      = (matchLoop (tp.length + 1) tp []).1.map (fun mt =>
          { fileName := dir ++ '/' ::
              (if ref ≠ [] ∧ ref.isPrefixOf fp then fp.drop ref.length else fp),
            lineNumber := qToInt num,
            matchingLine := (matchLoop (tp.length + 1) tp []).2,
            matchStart := mt.1, matchLength := mt.2 }) := by
  have hne : fp ++ nul :: (num ++ nul :: tp) ≠ [] := by simp
  have hlen : (fp ++ nul :: (num ++ nul :: tp)).length
      = fp.length + num.length + tp.length + 2 := by
    simp [List.length_append]
    omega
  have h1 : qIndexOf [nul] (fp ++ nul :: (num ++ nul :: tp)) 0 = (fp.length : Int) := by
    unfold qIndexOf
    rw [List.drop_zero, findSubstr_nul_cons fp _ hfp]
    simp
  have h2 : qLeft (fp ++ nul :: (num ++ nul :: tp)) (fp.length : Int) = fp := by
    unfold qLeft
    rw [if_neg]
    · rw [Int.toNat_natCast]
      exact List.take_left' rfl
    · rw [hlen]
      push_cast
      omega
  have h3 : ((fp.length : Int) + 1).toNat = fp.length + 1 := by omega
  have hdrop1 : (fp ++ nul :: (num ++ nul :: tp)).drop (fp.length + 1) = num ++ nul :: tp := by
    rw [show fp ++ nul :: (num ++ nul :: tp) = (fp ++ [nul]) ++ (num ++ nul :: tp) by simp]
    exact List.drop_left' (by simp)
  have h4 : qIndexOf [nul] (fp ++ nul :: (num ++ nul :: tp)) (fp.length + 1)
      = ((fp.length + 1 + num.length : Nat) : Int) := by
    unfold qIndexOf
    rw [hdrop1, findSubstr_nul_cons num tp hnum]
  have h5 : qMid (fp ++ nul :: (num ++ nul :: tp)) ((fp.length : Int) + 1)
      (((fp.length + 1 + num.length : Nat) : Int) - (fp.length : Int) - 1) = num := by
    have hn : ((fp.length + 1 + num.length : Nat) : Int) - (fp.length : Int) - 1
        = (num.length : Int) := by
      push_cast
      ring
    rw [hn]
    unfold qMid
    rw [if_neg, if_neg, if_neg]
    · have hpos : ((fp.length : Int) + 1).toNat = fp.length + 1 := by omega
      rw [hpos, hdrop1, Int.toNat_natCast]
      exact List.take_left' rfl
    · omega
    · omega
    · rw [hlen]
      push_cast
      omega
  have h6 : qMidAll (fp ++ nul :: (num ++ nul :: tp))
      (((fp.length + 1 + num.length : Nat) : Int) + 1) = tp := by
    unfold qMidAll qMid
    rw [if_neg, if_neg, if_pos (by omega)]
    · have hpos : (((fp.length + 1 + num.length : Nat) : Int) + 1).toNat
          = fp.length + num.length + 2 := by omega
      rw [hpos]
      rw [show fp ++ nul :: (num ++ nul :: tp) = ((fp ++ [nul]) ++ (num ++ [nul])) ++ tp by simp]
      exact List.drop_left' (by simp [List.length_append]; omega)
    · omega
    · rw [hlen]
      push_cast
      omega
  unfold processLine
  rw [if_neg hne]
  simp only [h1, h2, h3, h4, h5, h6]

theorem splitLines_ne_nil (s : List Char) (h : s ≠ []) : splitLines s ≠ [] := by
  cases s with
  | nil => exact absurd rfl h
  | cons c rest =>
    by_cases hc : c = '\n'
    · simp [splitLines, hc]
    · simp only [splitLines, if_neg hc]
      cases hsp : splitLines rest <;> simp

theorem splitLines_newline_append (a b : List Char) :
    splitLines (a ++ '\n' :: b) = splitLines (a ++ ['\n']) ++ splitLines b := by
  induction a with
  | nil => simp [splitLines]
  | cons c a ih =>
    by_cases hc : c = '\n'
    · subst hc
      simp [splitLines, ih]
    · have hne : splitLines (a ++ ['\n']) ≠ [] := splitLines_ne_nil _ (by simp)
      cases hsp : splitLines (a ++ ['\n']) with
      | nil => exact absurd hsp hne
      | cons l ls =>
        have ih' : splitLines (a ++ '\n' :: b) = l :: (ls ++ splitLines b) := by
          rw [ih, hsp]
          simp
        simp only [List.cons_append, splitLines, if_neg hc]
        rw [show a.append ('\n' :: b) = a ++ '\n' :: b from rfl,
          show a.append ['\n'] = a ++ ['\n'] from rfl, ih', hsp]
        rfl

theorem readLoop_no_cancel (dir ref : List Char) (ls : List (List Char)) (i : Nat) :
    readLoop (fun _ => false) dir ref ls i = ls.flatMap (processLine dir ref) := by
  induction ls generalizing i with
  | nil => simp [readLoop]
  | cons l ls ih => simp [readLoop, ih]

theorem readRecords_eq_flat (dir ref chunk : List Char) :
    readRecords dir ref chunk = (splitLines chunk).flatMap (processLine dir ref) := by
  unfold readRecords
  exact readLoop_no_cancel dir ref _ 0

theorem spansFrom_length (off : Nat) (segs : List (List Char × List Char)) :
    (spansFrom off segs).length = segs.length := by
  induction segs generalizing off with
  | nil => simp [spansFrom]
  | cons mp segs ih => simp [spansFrom, ih]

/-- C1 (counterexample): the claim says a launch failure yields a `Completed`
outcome and never a `Canceled` one, but `GitGrepRunner::exec` calls
`reportCanceled` on `StartFailed`, so the terminal outcome is `Canceled`. -/
theorem claim1_counterexample :
    outcomeOf (execFinalize SyncProcessResult.StartFailed ⟨false, []⟩) = ProcessOutcome.Canceled ∧
    outcomeOf (execFinalize SyncProcessResult.StartFailed ⟨false, []⟩) ≠ ProcessOutcome.Completed := by
  exact ⟨rfl, by decide⟩

/-- C1 (amended): when the external process terminates abnormally, fails to
launch, or hangs, `GitGrepRunner::exec` reports the invocation as Canceled
(adding no records); a clean exit and a non-zero exit with no output both
leave the future untouched, so they complete normally. -/
theorem claim1_amended (st : FutureState) (h : st.canceled = false) :
    execFinalize SyncProcessResult.Finished st = st ∧
    execFinalize SyncProcessResult.FinishedError st = st ∧
    outcomeOf st = ProcessOutcome.Completed ∧
    outcomeOf (execFinalize SyncProcessResult.TerminatedAbnormally st) = ProcessOutcome.Canceled ∧
    outcomeOf (execFinalize SyncProcessResult.StartFailed st) = ProcessOutcome.Canceled ∧
    outcomeOf (execFinalize SyncProcessResult.Hang st) = ProcessOutcome.Canceled ∧
    (execFinalize SyncProcessResult.TerminatedAbnormally st).reported = st.reported ∧
    (execFinalize SyncProcessResult.StartFailed st).reported = st.reported ∧
    (execFinalize SyncProcessResult.Hang st).reported = st.reported := by
  simp [execFinalize, outcomeOf, reportCanceled, h]

/-- C1 (witness): the amended claim at a fresh future state. -/
theorem claim1_witness :
    execFinalize SyncProcessResult.Finished ⟨false, []⟩ = (⟨false, []⟩ : FutureState) ∧
    execFinalize SyncProcessResult.FinishedError ⟨false, []⟩ = (⟨false, []⟩ : FutureState) ∧
    outcomeOf ⟨false, []⟩ = ProcessOutcome.Completed ∧
    outcomeOf (execFinalize SyncProcessResult.TerminatedAbnormally ⟨false, []⟩)
      = ProcessOutcome.Canceled ∧
    outcomeOf (execFinalize SyncProcessResult.StartFailed ⟨false, []⟩) = ProcessOutcome.Canceled ∧
    outcomeOf (execFinalize SyncProcessResult.Hang ⟨false, []⟩) = ProcessOutcome.Canceled ∧
    (execFinalize SyncProcessResult.TerminatedAbnormally ⟨false, []⟩).reported
      = (⟨false, []⟩ : FutureState).reported ∧
    (execFinalize SyncProcessResult.StartFailed ⟨false, []⟩).reported
      = (⟨false, []⟩ : FutureState).reported ∧
    (execFinalize SyncProcessResult.Hang ⟨false, []⟩).reported
      = (⟨false, []⟩ : FutureState).reported :=
  claim1_amended ⟨false, []⟩ rfl

/-- C4 (confirmed): `GitGrepRunner::read` publishes a chunk's batch through
`QFutureInterface::reportResult`, which checks the shared cancellation flag
first; once cancellation is requested, the batch accumulated for the chunk
being decoded is silently dropped and nothing further is ever reported. -/
theorem claim4 (cancelAt : Nat → Bool) (dir ref chunk : List Char) (st : FutureState)
    (h : st.canceled = true) :
    (read cancelAt dir ref chunk st).reported = st.reported ∧
    (read cancelAt dir ref chunk st).canceled = true := by
  unfold read
  by_cases hres : readLoop cancelAt dir ref (splitLines chunk) 0 = []
  · simp [hres, h]
  · simp [hres, reportResult, h]

/-- C4 (witness): a chunk holding one complete match line is decoded while the
flag is still unset at each line check, yet because cancellation lands before
the publish, the non-empty batch is dropped and nothing is reported. -/
theorem claim4_witness :
    (read (fun _ => false) [] [] "a.txt\x0010\x00\x1b[1;31mZ\x1b[m\n".toList ⟨true, []⟩).reported
      = (⟨true, []⟩ : FutureState).reported ∧
    (read (fun _ => false) [] [] "a.txt\x0010\x00\x1b[1;31mZ\x1b[m\n".toList ⟨true, []⟩).canceled
      = true :=
  claim4 (fun _ => false) [] [] _ ⟨true, []⟩ rfl

/-- C8 (counterexample): the claim says the live file is used exactly when the
retrieved revision content is byte-identical to the on-disk content; but when
`git show` succeeds with empty content, `GitGrep::openEditor` returns the
live-file signal even though the on-disk content differs. -/
theorem claim8_counterexample :
    openEditor true "main" false (some []) (some [120]) = none ∧
    (([] : List UInt8) ≠ [120]) :=
  ⟨rfl, by decide⟩

/-- C8 (amended): for an enabled search with a non-empty revision and item
path and a successfully retrieved non-empty revision content,
`GitGrep::openEditor` signals "use the live file" exactly when the readable
on-disk content is byte-identical to the revision content; when the on-disk
file is unreadable, a read-only view of the revision content is produced. -/
theorem claim8_amended (refParam : String) (content disk : List UInt8)
    (href : refParam ≠ "") (hc : content ≠ []) :
    (openEditor true refParam false (some content) (some disk) = none ↔ disk = content) ∧
    openEditor true refParam false (some content) none = some content := by
  constructor
  · constructor
    · intro hnone
      by_contra hne
      simp [openEditor, href, hc, hne] at hnone
    · intro heq
      simp [openEditor, href, hc, heq]
  · simp [openEditor, href, hc]

/-- C8 (witness): the amended claim at identical one-byte contents. -/
theorem claim8_witness :
    (openEditor true "main" false (some [97]) (some [97]) = none ↔ ([97] : List UInt8) = [97]) ∧
    openEditor true "main" false (some [97]) none = some [97] :=
  claim8_amended "main" [97] [97] (by decide) (by decide)

/-- C9 (confirmed): `GitGrepRunner::exec` builds the argument list as a
deterministic function of the query configuration: after the fixed colorized
null-delimited record options comes a flag block holding `-i` exactly when
the search is not case sensitive, `-w` exactly for whole words, `-P` exactly
for a regular expression and `-F` otherwise; then the pattern, then the
non-empty scope reference as a positional argument, then the positional
terminator `--` followed by the filename filters. -/
theorem claim9 (p : FileFindParameters) :
    ∃ fl : List String,
      execArguments p
        = ["-c", "color.grep.match=bold red", "grep", "-zn", "--color=always"]
            ++ fl ++ [p.text] ++ (if p.ref = "" then [] else [p.ref]) ++ ["--"] ++ p.nameFilters
      ∧ ("-i" ∈ fl ↔ p.findCaseSensitively = false)
      ∧ ("-w" ∈ fl ↔ p.findWholeWords = true)
      ∧ ("-P" ∈ fl ↔ p.findRegularExpression = true)
      ∧ ("-F" ∈ fl ↔ p.findRegularExpression = false) := by
  refine ⟨(if p.findCaseSensitively then [] else ["-i"])
      ++ (if p.findWholeWords then ["-w"] else [])
      ++ (if p.findRegularExpression then ["-P"] else ["-F"]), ?_, ?_, ?_, ?_, ?_⟩ <;>
    rcases hc : p.findCaseSensitively <;> rcases hw : p.findWholeWords <;>
      rcases hr : p.findRegularExpression <;>
    simp [execArguments, hc, hw, hr, List.append_assoc]

/-- C2 (counterexample): re-chunking the same byte stream changes the record
sequence.  `GitGrepRunner::read` builds a fresh `QTextStream` per chunk and
keeps no pending-partial-line buffer, so a logical line split across two
chunks is decoded as two broken lines: delivered whole, the stream below
yields one record; split in the middle of the highlight marker, it yields
none. -/
theorem claim2_counterexample :
    "a.txt\x0010\x00foo \x1b".toList ++ "[1;31mBAR\x1b[m baz\n".toList
        = "a.txt\x0010\x00foo \x1b[1;31mBAR\x1b[m baz\n".toList ∧
    decodeChunks [] [] ["a.txt\x0010\x00foo \x1b[1;31mBAR\x1b[m baz\n".toList]
      ≠ decodeChunks [] [] ["a.txt\x0010\x00foo \x1b".toList, "[1;31mBAR\x1b[m baz\n".toList] := by
  exact ⟨by decide, by decide⟩

/-- C2 (amended): chunking is transparent only at line boundaries: when every
chunk is empty or newline-terminated, decoding the chunks one at a time
yields exactly the records of decoding the whole stream at once; in general
there is no pending-partial-line buffer across `GitGrepRunner::read` calls,
so splitting a logical line across chunks can change the records. -/
theorem claim2_amended (dir ref : List Char) (chunks : List (List Char))
    (h : ∀ c ∈ chunks, c = [] ∨ ∃ c0, c = c0 ++ ['\n']) :
    decodeChunks dir ref chunks = readRecords dir ref chunks.flatten := by
  induction chunks with
  | nil => simp [decodeChunks, readRecords, readLoop, splitLines]
  | cons c cs ih =>
    have ih' := ih (fun c' hc' => h c' (List.mem_cons_of_mem _ hc'))
    have hdc : decodeChunks dir ref (c :: cs)
        = readRecords dir ref c ++ decodeChunks dir ref cs := by
      simp [decodeChunks]
    rcases h c (by simp) with rfl | ⟨c0, rfl⟩
    · rw [hdc, ih']
      simp [readRecords_eq_flat, splitLines]
    · rw [hdc, ih']
      rw [show ((c0 ++ ['\n']) :: cs).flatten = c0 ++ '\n' :: cs.flatten by simp]
      rw [readRecords_eq_flat, readRecords_eq_flat, readRecords_eq_flat,
        splitLines_newline_append c0 cs.flatten]
      simp [List.flatMap_append]

/-- C2 (witness): the amended claim on a single newline-terminated chunk
holding one match line. -/
theorem claim2_witness :
    decodeChunks [] [] ["a.txt\x001\x00\x1b[1;31mQ\x1b[m\n".toList]
      = readRecords [] [] (["a.txt\x001\x00\x1b[1;31mQ\x1b[m\n".toList] : List (List Char)).flatten :=
  claim2_amended [] [] _ (by
    intro c hc
    rw [List.mem_singleton] at hc
    subst hc
    exact Or.inr ⟨"a.txt\x001\x00\x1b[1;31mQ\x1b[m".toList, by decide⟩)

/-- C7 (confirmed): `GitGrepRunner::exec` remembers the registered scope
reference plus `':'` as a path prefix, and `GitGrepRunner::processLine`
strips that prefix from every reported file path that starts with it; in
particular with reference `main`, the raw path `main:src/a.txt` is reported
as `src/a.txt` (prefixed by the search directory). -/
theorem claim7 (dir ref fp num tp : List Char) (rec : FileSearchResult)
    (href : ref ≠ []) (hfp : nul ∉ fp) (hnum : nul ∉ num)
    (hpre : (ref ++ [':']).isPrefixOf fp = true)
    (hrec : rec ∈ processLine dir (registeredRef ref) (fp ++ nul :: (num ++ nul :: tp))) :
    rec.fileName = dir ++ '/' :: fp.drop (ref.length + 1) := by
  rw [processLine_parse dir (registeredRef ref) fp num tp hfp hnum] at hrec
  obtain ⟨mt, hmt, rfl⟩ := List.mem_map.mp hrec
  have hr : registeredRef ref = ref ++ [':'] := by simp [registeredRef, href]
  simp [hr, hpre, List.length_append]

/-- C7 (witness): the scenario of the claim, with search directory `repo`,
registered reference `main` and raw path `main:src/a.txt`. -/
theorem claim7_witness :
    (⟨"repo/src/a.txt".toList, 10, "X".toList, 0, 1⟩ : FileSearchResult).fileName
      = "repo".toList ++ '/' :: ("main:src/a.txt".toList.drop ("main".toList.length + 1)) :=
  claim7 "repo".toList "main".toList "main:src/a.txt".toList "10".toList
    "\x1b[1;31mX\x1b[m".toList ⟨"repo/src/a.txt".toList, 10, "X".toList, 0, 1⟩
    (by decide) (by decide) (by decide) (by decide) (by decide)

/-- C3 (counterexample): on a line with one correctly paired span followed by
an unmatched start marker, the claim demands zero records and no raw marker
in any output; but `GitGrepRunner::processLine` only breaks out of the
splicing loop (`QTC_ASSERT(matchEnd != -1, break)`), so it still emits the
one record for the earlier pair and its `matchingLine` retains the raw
unmatched start marker. -/
theorem claim3_counterexample :
    (processLine [] [] "a.txt\x003\x00\x1b[1;31mOK\x1b[m \x1b[1;31mbad".toList).length = 1 ∧
    countOcc boldRed
        (processLine [] [] "a.txt\x003\x00\x1b[1;31mOK\x1b[m \x1b[1;31mbad".toList).headI.matchingLine
      = 1 := by
  exact ⟨by decide, by decide⟩

/-- C3 (amended): on a line whose text is escape-free segments with properly
paired spans followed by one unmatched start marker and an escape-free tail,
the decoder stops splicing at the unmatched marker: it emits exactly the
records of the earlier paired spans (not zero), their shared line text keeps
the raw unmatched marker, and decoding of the surrounding lines is
unaffected. -/
theorem claim3_amended (dir fp num p0 t : List Char) (segs : List (List Char × List Char))
    (hfp : nul ∉ fp) (hnum : nul ∉ num) (hp0 : esc ∉ p0)
    (hsegs : ∀ mp ∈ segs, esc ∉ mp.1 ∧ esc ∉ mp.2) (ht : esc ∉ t) :
    (processLine dir [] (fp ++ nul :: (num ++ nul :: (p0 ++ lineRest segs (some t))))).length
        = segs.length ∧
    (∀ rec ∈ processLine dir [] (fp ++ nul :: (num ++ nul :: (p0 ++ lineRest segs (some t)))),
        rec.matchingLine = p0 ++ strippedRest segs (some t)) ∧
    (findSubstr boldRed (p0 ++ strippedRest segs (some t))).isSome = true ∧
    (∀ pre post : List (List Char),
      (pre ++ (fp ++ nul :: (num ++ nul :: (p0 ++ lineRest segs (some t)))) :: post).flatMap
          (processLine dir [])
        = pre.flatMap (processLine dir [])
            ++ processLine dir [] (fp ++ nul :: (num ++ nul :: (p0 ++ lineRest segs (some t))))
            ++ post.flatMap (processLine dir [])) := by
  have hfuel : segs.length + 1 ≤ (p0 ++ lineRest segs (some t)).length + 1 := by
    have hl := lineRest_length_ge segs (some t)
    simp only [List.length_append]
    omega
  have hwf := matchLoop_wf segs p0 (some t) [] ((p0 ++ lineRest segs (some t)).length + 1)
    hp0 hsegs (fun t1 h1 => by cases h1; exact ht) hfuel
  refine ⟨?_, ?_, ?_, ?_⟩
  · rw [processLine_parse dir [] fp num _ hfp hnum, hwf]
    simp [spansFrom_length]
  · intro rec hrec
    rw [processLine_parse dir [] fp num _ hfp hnum, hwf] at hrec
    obtain ⟨mt, hmt, rfl⟩ := List.mem_map.mp hrec
    simp
  · rw [strippedRest_some_eq]
    have hesc : esc ∉ p0 ++ strippedRest segs none := by
      simp [List.mem_append, hp0, esc_not_mem_strippedRest_none segs hsegs]
    rw [show p0 ++ (strippedRest segs none ++ (boldRed ++ t))
        = (p0 ++ strippedRest segs none) ++ (boldRed ++ t) by simp [List.append_assoc]]
    rw [findSubstr_boldRed _ _ hesc]
    rfl
  · intro pre post
    simp [List.flatMap_append]

/-- C3 (witness): the amended claim on the line `a.txt<NUL>3<NUL>` followed by
one paired span `OK` and the unmatched tail `bad`: one record is emitted and
the stripped line still holds a start marker. -/
theorem claim3_witness :
    (processLine [] []
        ("a.txt".toList ++ nul :: ("3".toList ++ nul ::
          ([] ++ lineRest [("OK".toList, " ".toList)] (some "bad".toList))))).length
      = ([("OK".toList, " ".toList)] : List (List Char × List Char)).length ∧
    (findSubstr boldRed
        ([] ++ strippedRest [("OK".toList, " ".toList)] (some "bad".toList))).isSome = true :=
  ⟨(claim3_amended [] "a.txt".toList "3".toList [] "bad".toList [("OK".toList, " ".toList)]
      (by decide) (by decide) (by decide) (by decide) (by decide)).1,
   (claim3_amended [] "a.txt".toList "3".toList [] "bad".toList [("OK".toList, " ".toList)]
      (by decide) (by decide) (by decide) (by decide) (by decide)).2.2.1⟩

/-- C5 (counterexample): a line whose single properly paired span hides marker
fragments at segment junctions makes the splicing loop record a span against
a longer intermediate text; the first emitted record has
`matchStart + matchLength = 11` while the final `matchingLine` (`ABQ`) has
length 3, refuting the invariant as stated for every input line. -/
theorem claim5_counterexample :
    (processLine [] [] "v.txt\x007\x00\x1b[1;3\x1b[1;31m1mAB\x1b[\x1b[mmQ".toList).length = 2 ∧
    (processLine [] [] "v.txt\x007\x00\x1b[1;3\x1b[1;31m1mAB\x1b[\x1b[mmQ".toList).headI.matchingLine.length
      < (processLine [] [] "v.txt\x007\x00\x1b[1;3\x1b[1;31m1mAB\x1b[\x1b[mmQ".toList).headI.matchStart
        + (processLine [] [] "v.txt\x007\x00\x1b[1;3\x1b[1;31m1mAB\x1b[\x1b[mmQ".toList).headI.matchLength := by
  exact ⟨by decide, by decide⟩

/-- C5 (amended): for lines in the tool's wire format whose text part is made
of escape-free plain and highlighted segments around properly paired markers,
every emitted record satisfies `matchStart + matchLength ≤ length lineText`
and its `lineText` contains no occurrence of either highlight marker. -/
theorem claim5_amended (dir fp num p0 : List Char) (segs : List (List Char × List Char))
    (hfp : nul ∉ fp) (hnum : nul ∉ num) (hp0 : esc ∉ p0)
    (hsegs : ∀ mp ∈ segs, esc ∉ mp.1 ∧ esc ∉ mp.2) :
    ∀ rec ∈ processLine dir [] (fp ++ nul :: (num ++ nul :: (p0 ++ lineRest segs none))),
      rec.matchStart + rec.matchLength ≤ rec.matchingLine.length ∧
      countOcc boldRed rec.matchingLine = 0 ∧
      countOcc resetColor rec.matchingLine = 0 := by
  intro rec hrec
  rw [processLine_parse dir [] fp num _ hfp hnum] at hrec
  have hfuel : segs.length + 1 ≤ (p0 ++ lineRest segs none).length + 1 := by
    have hl := lineRest_length_ge segs none
    simp only [List.length_append]
    omega
  have hwf := matchLoop_wf segs p0 none [] ((p0 ++ lineRest segs none).length + 1)
    hp0 hsegs (fun t1 h1 => by cases h1) hfuel
  rw [hwf] at hrec
  obtain ⟨mt, hmt, rfl⟩ := List.mem_map.mp hrec
  have hb := spansFrom_mem_bounds segs p0.length mt hmt
  have hesc : esc ∉ p0 ++ strippedRest segs none := by
    simp [List.mem_append, hp0, esc_not_mem_strippedRest_none segs hsegs]
  refine ⟨?_, ?_, ?_⟩
  · simp only [List.nil_append, List.length_append]
    omega
  · exact countOcc_zero esc _ _ hesc
  · exact countOcc_zero esc _ _ hesc

/-- C5 (witness): the record decoded from
`a.txt<NUL>10<NUL>foo <marker-start>BAR<marker-end> baz` satisfies the
amended invariant. -/
theorem claim5_witness :
    (⟨"d/a.txt".toList, 10, "foo BAR baz".toList, 4, 3⟩ : FileSearchResult).matchStart
        + (⟨"d/a.txt".toList, 10, "foo BAR baz".toList, 4, 3⟩ : FileSearchResult).matchLength
      ≤ (⟨"d/a.txt".toList, 10, "foo BAR baz".toList, 4, 3⟩ : FileSearchResult).matchingLine.length ∧
    countOcc boldRed
        (⟨"d/a.txt".toList, 10, "foo BAR baz".toList, 4, 3⟩ : FileSearchResult).matchingLine = 0 ∧
    countOcc resetColor
        (⟨"d/a.txt".toList, 10, "foo BAR baz".toList, 4, 3⟩ : FileSearchResult).matchingLine = 0 :=
  claim5_amended "d".toList "a.txt".toList "10".toList "foo ".toList
    [("BAR".toList, " baz".toList)] (by decide) (by decide) (by decide) (by decide)
    ⟨"d/a.txt".toList, 10, "foo BAR baz".toList, 4, 3⟩ (by decide)

/-- C6 (counterexample): the text part below contains exactly one start
marker (at index 5) and one end marker (at index 12 + 6), so it has exactly
one properly paired, non-nested highlighted span, and the highlighted
substring holds no marker occurrence; yet the line decodes to two records
rather than one, refuting the round trip as stated. -/
theorem claim6_counterexample :
    countOcc boldRed "\x1b[1;3\x1b[1;31m1mAB\x1b[\x1b[mmQ".toList = 1 ∧
    countOcc resetColor "\x1b[1;3\x1b[1;31m1mAB\x1b[\x1b[mmQ".toList = 1 ∧
    findSubstr boldRed "\x1b[1;3\x1b[1;31m1mAB\x1b[\x1b[mmQ".toList = some 5 ∧
    findSubstr resetColor ("\x1b[1;3\x1b[1;31m1mAB\x1b[\x1b[mmQ".toList.drop 12) = some 6 ∧
    countOcc boldRed (("\x1b[1;3\x1b[1;31m1mAB\x1b[\x1b[mmQ".toList.drop 12).take 6) = 0 ∧
    countOcc resetColor (("\x1b[1;3\x1b[1;31m1mAB\x1b[\x1b[mmQ".toList.drop 12).take 6) = 0 ∧
    (processLine [] [] "w.txt\x008\x00\x1b[1;3\x1b[1;31m1mAB\x1b[\x1b[mmQ".toList).length = 2 := by
  exact ⟨by decide, by decide, by decide, by decide, by decide, by decide, by decide⟩

/-- C6 (amended): for lines in the tool's wire format whose text part is made
of escape-free segments with `N` properly paired spans, the decoder emits
exactly `N` records, all sharing the file name, line number and marker-free
line text, and the emitted offsets and lengths are exactly the spans'
positions relative to the marker-free text. -/
theorem claim6_amended (dir fp num p0 : List Char) (segs : List (List Char × List Char))
    (hfp : nul ∉ fp) (hnum : nul ∉ num) (hp0 : esc ∉ p0)
    (hsegs : ∀ mp ∈ segs, esc ∉ mp.1 ∧ esc ∉ mp.2) :
    (processLine dir [] (fp ++ nul :: (num ++ nul :: (p0 ++ lineRest segs none)))).length
        = segs.length ∧
    (∀ rec ∈ processLine dir [] (fp ++ nul :: (num ++ nul :: (p0 ++ lineRest segs none))),
        rec.fileName = dir ++ '/' :: fp ∧ rec.lineNumber = qToInt num ∧
        rec.matchingLine = p0 ++ strippedRest segs none) ∧
    (processLine dir [] (fp ++ nul :: (num ++ nul :: (p0 ++ lineRest segs none)))).map
        (fun rec => (rec.matchStart, rec.matchLength)) = spansFrom p0.length segs := by
  have hfuel : segs.length + 1 ≤ (p0 ++ lineRest segs none).length + 1 := by
    have hl := lineRest_length_ge segs none
    simp only [List.length_append]
    omega
  have hwf := matchLoop_wf segs p0 none [] ((p0 ++ lineRest segs none).length + 1)
    hp0 hsegs (fun t1 h1 => by cases h1) hfuel
  rw [processLine_parse dir [] fp num _ hfp hnum, hwf]
  refine ⟨?_, ?_, ?_⟩
  · simp [spansFrom_length]
  · intro rec hrec
    obtain ⟨mt, hmt, rfl⟩ := List.mem_map.mp hrec
    simp
  · simp [List.map_map, Function.comp_def, Prod.mk.eta, List.map_id]

/-- C6 (witness): the scenario of the claim:
`a.txt<NUL>10<NUL>foo <marker-start>BAR<marker-end> baz` decodes to exactly
one record whose span is `(4, 3)` relative to `foo BAR baz`, with line
number 10. -/
theorem claim6_witness :
    (processLine "repo".toList []
        ("a.txt".toList ++ nul :: ("10".toList ++ nul ::
          ("foo ".toList ++ lineRest [("BAR".toList, " baz".toList)] none)))).length = 1 ∧
    (processLine "repo".toList []
        ("a.txt".toList ++ nul :: ("10".toList ++ nul ::
          ("foo ".toList ++ lineRest [("BAR".toList, " baz".toList)] none)))).map
        (fun rec => (rec.matchStart, rec.matchLength))
      = spansFrom "foo ".toList.length [("BAR".toList, " baz".toList)] ∧
    spansFrom "foo ".toList.length [("BAR".toList, " baz".toList)] = [(4, 3)] ∧
    qToInt "10".toList = 10 :=
  ⟨(claim6_amended "repo".toList "a.txt".toList "10".toList "foo ".toList
      [("BAR".toList, " baz".toList)] (by decide) (by decide) (by decide) (by decide)).1,
   (claim6_amended "repo".toList "a.txt".toList "10".toList "foo ".toList
      [("BAR".toList, " baz".toList)] (by decide) (by decide) (by decide) (by decide)).2.2,
   by decide, by decide⟩

/-- C10 (counterexample): the text part below has exactly one properly
paired, non-nested span whose highlighted substring holds no marker
occurrence, yet the emitted spans are `(5, 6)` followed by `(0, 2)`: the
second record starts before `5 + 6`, so the records are neither in
increasing offset order nor non-overlapping. -/
theorem claim10_counterexample :
    countOcc boldRed "\x1b[1;3\x1b[1;31m1mAB\x1b[\x1b[mmQ".toList = 1 ∧
    countOcc resetColor "\x1b[1;3\x1b[1;31m1mAB\x1b[\x1b[mmQ".toList = 1 ∧
    countOcc boldRed (("\x1b[1;3\x1b[1;31m1mAB\x1b[\x1b[mmQ".toList.drop 12).take 6) = 0 ∧
    countOcc resetColor (("\x1b[1;3\x1b[1;31m1mAB\x1b[\x1b[mmQ".toList.drop 12).take 6) = 0 ∧
    (processLine [] [] "x.txt\x009\x00\x1b[1;3\x1b[1;31m1mAB\x1b[\x1b[mmQ".toList).map
        (fun rec => (rec.matchStart, rec.matchLength)) = [(5, 6), (0, 2)] ∧
    ¬(5 + 6 ≤ 0) := by
  exact ⟨by decide, by decide, by decide, by decide, by decide, by decide⟩

/-- C10 (amended): for lines in the tool's wire format whose text part is
made of escape-free segments with properly paired spans, the emitted records
are ordered and non-overlapping: each record's `matchStart` is at least every
earlier record's `matchStart + matchLength`. -/
theorem claim10_amended (dir fp num p0 : List Char) (segs : List (List Char × List Char))
    (hfp : nul ∉ fp) (hnum : nul ∉ num) (hp0 : esc ∉ p0)
    (hsegs : ∀ mp ∈ segs, esc ∉ mp.1 ∧ esc ∉ mp.2) :
    List.Pairwise (fun a b => a.matchStart + a.matchLength ≤ b.matchStart)
      (processLine dir [] (fp ++ nul :: (num ++ nul :: (p0 ++ lineRest segs none)))) := by
  have hfuel : segs.length + 1 ≤ (p0 ++ lineRest segs none).length + 1 := by
    have hl := lineRest_length_ge segs none
    simp only [List.length_append]
    omega
  have hwf := matchLoop_wf segs p0 none [] ((p0 ++ lineRest segs none).length + 1)
    hp0 hsegs (fun t1 h1 => by cases h1) hfuel
  rw [processLine_parse dir [] fp num _ hfp hnum, hwf]
  rw [List.pairwise_map]
  exact spansFrom_pairwise p0.length segs

/-- C10 (witness): the amended ordering claim on the scenario line with one
span. -/
theorem claim10_witness :
    List.Pairwise (fun a b => a.matchStart + a.matchLength ≤ b.matchStart)
      (processLine "d".toList []
        ("a.txt".toList ++ nul :: ("10".toList ++ nul ::
          ("foo ".toList ++ lineRest [("BAR".toList, " baz".toList)] none)))) :=
  claim10_amended "d".toList "a.txt".toList "10".toList "foo ".toList
    [("BAR".toList, " baz".toList)] (by decide) (by decide) (by decide) (by decide)

end GitGrep
